import Mathlib

/-!
Verification development for the cache replacement-policy simulator in
`src/simulations/coalesce_sim.cpp`.  The C++ program is shallowly embedded:
each class becomes a Lean structure or a group of functions, the virtual
`ReplacementPolicy` interface becomes a record of functions over a policy
state type, and `Simulator::access` becomes a pure state-transition function.
Machine integers are modelled as `Nat`/`Int` (the program keeps every value
well inside the native ranges; hashing uses `Nat` xor/shift which agrees with
`uint64_t` for the inputs that occur).
-/

set_option maxRecDepth 10000

namespace Coalesce

/-- NUM_SETS (coalesce_sim.cpp line 11). -/
def NUM_SETS : Nat := 64

/-- WAYS (line 12). -/
def WAYS : Nat := 8

/-- PERCEPTRON_TABLE_SIZE (line 13). -/
def PERCEPTRON_TABLE_SIZE : Nat := 4096

/-- SAMPLER_SIZE (line 14): intended capacity of each per-set sampler ring. -/
def SAMPLER_SIZE : Nat := 8

/-- SAMPLING_RATE (line 15). -/
def SAMPLING_RATE : Nat := 32

/-- MESI_State (line 18): INVALID=0, SHARED=1, EXCLUSIVE=2, MODIFIED=3. -/
inductive MESI_State where
  | INVALID
  | SHARED
  | EXCLUSIVE
  | MODIFIED
deriving DecidableEq

/-- The numeric value of the C++ enum, used by the hash. -/
def MESI_State.toNat : MESI_State → Nat
  | .INVALID => 0
  | .SHARED => 1
  | .EXCLUSIVE => 2
  | .MODIFIED => 3

instance : Inhabited MESI_State := ⟨.INVALID⟩

/-- CacheLine (lines 21-31), with the C++ default member initializers. -/
structure CacheLine where
  valid : Bool := false
  tag : Nat := 0
  pc : Nat := 0
  sharers : Nat := 0
  state : MESI_State := .INVALID
  lru_stack : Nat := 0
  rrpv : Nat := 3
deriving DecidableEq

/-- A default-constructed CacheLine (C++ member initializers). -/
instance : Inhabited CacheLine := ⟨{}⟩

/-- SamplerEntry (lines 34-41).  `ptag` is the source's partial_tag field. -/
structure SamplerEntry where
  valid : Bool := false
  ptag : Nat := 0
  pc : Nat := 0
  sharers : Nat := 0
  state : MESI_State := .INVALID
  last_prediction : Int := 0
deriving DecidableEq

instance : Inhabited SamplerEntry := ⟨{}⟩

/-- PerceptronBrain constructor (lines 49-51): all weights start at 0. -/
def perceptronInit : List Int := List.replicate PERCEPTRON_TABLE_SIZE 0

/-- PerceptronBrain::get_hash (lines 55-61):
`h = pc; h ^= sharers << 4; h ^= state << 8; return (h ^ 0x9e3779b9) % SIZE`. -/
def get_hash (pc sharers : Nat) (state : MESI_State) : Nat :=
  (((pc ^^^ (sharers <<< 4)) ^^^ (state.toNat <<< 8)) ^^^ 0x9e3779b9) % PERCEPTRON_TABLE_SIZE

/-- PerceptronBrain::predict (lines 64-66): read the hashed weight. -/
def predict (weights : List Int) (pc sharers : Nat) (state : MESI_State) : Int :=
  weights.getD (get_hash pc sharers state) 0

/-- PerceptronBrain::train (lines 69-78): saturating increment/decrement. -/
def train (weights : List Int) (pc sharers : Nat) (state : MESI_State) (positive : Bool) :
    List Int :=
  let idx := get_hash pc sharers state
  if positive then
    if weights.getD idx 0 < 127 then weights.set idx (weights.getD idx 0 + 1) else weights
  else
    if -128 < weights.getD idx 0 then weights.set idx (weights.getD idx 0 - 1) else weights

/-- The abstract `ReplacementPolicy` interface (lines 82-89) as a record of
functions over a policy-private state type `σ` (the virtual dispatch of the
source becomes record application).  `find_victim` returns the C++ `int`
victim index together with the updated policy state. -/
structure Policy (σ : Type) where
  update_on_hit : σ → Nat → Nat → CacheLine → σ
  update_on_miss : σ → Nat → Int → σ
  find_victim : σ → Nat → List CacheLine → Nat → Nat → MESI_State → Int × σ

/-- A bounded first-index scan: the common shape of every `for (w = 0; w < WAYS; w++)
... return w;` loop in the source.  `scanFirst p r w` returns the first index
`j` with `w ≤ j < w + r` satisfying `p`, scanning upward, `none` if there is none. -/
def scanFirst (p : Nat → Bool) : Nat → Nat → Option Nat
  | 0, _ => none
  | r+1, w => if p w then some w else scanFirst p r (w+1)

/-! ## LRU_Policy (lines 92-125) -/

/-- LRU_Policy constructor (lines 95-99): `lru_stacks[s][w] = w`. -/
def lruInit : List (List Nat) := List.replicate NUM_SETS (List.range WAYS)

/-- Body shared by LRU_Policy::update_on_hit and ::update_on_miss (lines 101-115):
every way with rank strictly below the touched way's old rank is incremented,
then the touched way's rank becomes 0. -/
def lruTouch (ranks : List Nat) (way : Nat) : List Nat :=
  let old := ranks.getD way 0
  (ranks.map (fun r => if r < old then r + 1 else r)).set way 0

/-- LRU_Policy::find_victim (lines 117-123): first way that is invalid or has
rank WAYS-1; `return 0` if the loop falls through. -/
def lruFindVictim (ranks : List Nat) (cset : List CacheLine) : Int :=
  match scanFirst
      (fun w => (!(cset.getD w default).valid) || (ranks.getD w 0 == WAYS - 1)) WAYS 0 with
  | some w => (w : Int)
  | none => 0

/-- The LRU policy record (class LRU_Policy).  A negative way index passed to
update_on_miss would be undefined behaviour in the C++ (vector indexing); it is
modelled as a no-op and never occurs in reachable executions. -/
def LRU_Policy : Policy (List (List Nat)) where
  update_on_hit := fun ps set_idx way _line => ps.set set_idx (lruTouch (ps.getD set_idx []) way)
  update_on_miss := fun ps set_idx way =>
    if way < 0 then ps else ps.set set_idx (lruTouch (ps.getD set_idx []) way.toNat)
  find_victim := fun ps set_idx cset _pc _sh _st => (lruFindVictim (ps.getD set_idx []) cset, ps)

/-! ## SRRIP_Policy (lines 127-157) -/

/-- SRRIP_Policy constructor (lines 131-133): all rrpv bits start at 3. -/
def srripInit : List (List Nat) := List.replicate NUM_SETS (List.replicate WAYS 3)

/-- One scan of SRRIP_Policy::find_victim's inner loop (lines 146-149):
first way that is invalid or has rrpv = 3. -/
def srripScan (rr : List Nat) (cset : List CacheLine) : Option Nat :=
  scanFirst (fun w => (!(cset.getD w default).valid) || (rr.getD w 3 == 3)) WAYS 0

/-- The aging step (lines 151-153): increment every rrpv below 3. -/
def srripAge (rr : List Nat) : List Nat :=
  rr.map (fun v => if v < 3 then v + 1 else v)

/-- The `while(true)` of SRRIP_Policy::find_victim (lines 145-154), made total
with explicit fuel (one unit per scan round); `none` means the fuel ran out.
Fuel 4 is provably always sufficient (the aging bound of claim C9). -/
def srripLoop (cset : List CacheLine) : Nat → List Nat → Option (Nat × List Nat)
  | 0, _ => none
  | fuel+1, rr =>
    match srripScan rr cset with
    | some w => some (w, rr)
    | none => srripLoop cset fuel (srripAge rr)

/-- The SRRIP policy record (class SRRIP_Policy).  The fuel-exhaustion branch
`(0, ps)` is unreachable (claim C9); a negative update_on_miss index is
modelled as a no-op as for LRU. -/
def SRRIP_Policy : Policy (List (List Nat)) where
  update_on_hit := fun ps set_idx way _line => ps.set set_idx ((ps.getD set_idx []).set way 0)
  update_on_miss := fun ps set_idx way =>
    if way < 0 then ps else ps.set set_idx ((ps.getD set_idx []).set way.toNat 2)
  find_victim := fun ps set_idx cset _pc _sh _st =>
    match srripLoop cset 4 (ps.getD set_idx []) with
    | some wr => ((wr.1 : Int), ps.set set_idx wr.2)
    | none => (0, ps)

/-! ## COALESCE_Policy (lines 160-233) -/

/-- The policy-private state of COALESCE_Policy: the shared brain's weight
table and the per-set sampler vectors.  The `is_sampled` vector of the source
is a pure function of the set index (constructor lines 171-173) and is
modelled as such. -/
structure CoalesceState where
  brain : List Int
  samplers : List (List SamplerEntry)
deriving DecidableEq

/-- COALESCE_Policy constructor (lines 166-174): samplers start as
SAMPLER_SIZE default entries per set. -/
def coalesceInit : CoalesceState :=
  ⟨perceptronInit, List.replicate NUM_SETS (List.replicate SAMPLER_SIZE {})⟩

/-- is_sampled[i] (constructor lines 171-173): `i % SAMPLING_RATE == 0`. -/
def is_sampled (i : Nat) : Bool := i % SAMPLING_RATE == 0

/-- The adjusted vote of one occupied way (lines 202-209): raw prediction,
plus 60 if the line is Modified, plus 30 if it has more than 2 sharers. -/
def coalesceVote (brain : List Int) (l : CacheLine) : Int :=
  let vote := predict brain l.pc l.sharers l.state
  let vote := if l.state = MESI_State.MODIFIED then vote + 60 else vote
  if 2 < l.sharers then vote + 30 else vote

/-- The scan loop of COALESCE_Policy::find_victim (lines 198-215), carrying
the accumulator pair (victim, min_vote), initial values (-1, 99999).
`Sum.inr w` is the early `return w` on an invalid way; `Sum.inl (v, m)` is
loop completion with the min-vote victim. -/
def coalesceGo (brain : List Int) (cset : List CacheLine) :
    Nat → Nat → Int → Int → (Int × Int) ⊕ Nat
  | 0, _, victim, min_vote => Sum.inl (victim, min_vote)
  | r+1, w, victim, min_vote =>
    if (cset.getD w default).valid then
      let vote := coalesceVote brain (cset.getD w default)
      if vote < min_vote then coalesceGo brain cset r (w+1) (w : Int) vote
      else coalesceGo brain cset r (w+1) victim min_vote
    else Sum.inr w

/-- COALESCE_Policy::find_victim (lines 187-231).  On early return (invalid
way) nothing else happens; on loop completion, if the set is sampled the
eviction record is appended (the source's `push_back`, line 221) and the brain
is trained negatively on the victim's signature.  `vm.1.toNat` indexing with a
negative victim would be undefined behaviour in the source and is unreachable
for bounded weight tables. -/
def coalesceFindVictim (st : CoalesceState) (set_idx : Nat) (cset : List CacheLine) :
    Int × CoalesceState :=
  match coalesceGo st.brain cset WAYS 0 (-1) 99999 with
  | Sum.inr w => ((w : Int), st)
  | Sum.inl vm =>
    if is_sampled set_idx then
      let victim_line := cset.getD vm.1.toNat default
      let entry : SamplerEntry :=
        ⟨true, victim_line.tag, victim_line.pc, victim_line.sharers, victim_line.state, vm.2⟩
      let samplers' := st.samplers.set set_idx ((st.samplers.getD set_idx []) ++ [entry])
      let brain' := train st.brain victim_line.pc victim_line.sharers victim_line.state false
      (vm.1, ⟨brain', samplers'⟩)
    else (vm.1, st)

/-- The COALESCE policy record (class COALESCE_Policy): hits in sampled sets
train positively on the hit line's own stored signature (lines 176-181);
update_on_miss does nothing (lines 183-185). -/
def COALESCE_Policy : Policy CoalesceState where
  update_on_hit := fun st set_idx _way line =>
    if is_sampled set_idx then ⟨train st.brain line.pc line.sharers line.state true, st.samplers⟩
    else st
  update_on_miss := fun st _set_idx _way => st
  find_victim := fun st set_idx cset _pc _sh _st => coalesceFindVictim st set_idx cset

/-! ## Simulator (lines 236-281) -/

/-- The Simulator's state (lines 236-241), generic over the policy state. -/
structure SimState (σ : Type) where
  policyState : σ
  cache : List (List CacheLine)
  hits : Nat
  misses : Nat
  coherence_traffic_saved : Nat

/-- Simulator constructor (lines 244-246): NUM_SETS × WAYS default lines. -/
def simInit {σ : Type} (ps : σ) : SimState σ :=
  ⟨ps, List.replicate NUM_SETS (List.replicate WAYS {}), 0, 0, 0⟩

/-- The hit scan of Simulator::access (lines 253-255): first way holding a
valid line with the matching tag. -/
def findHitWay (cset : List CacheLine) (tag : Nat) : Option Nat :=
  scanFirst (fun w => (cset.getD w default).valid && ((cset.getD w default).tag == tag)) WAYS 0

/-- Simulator::access (lines 248-273).  The install on the miss path writes
`cache[set_idx][victim_way]` with no range check in the source; an
out-of-range index is undefined behaviour there (no defined install, no
rejection), modelled here as leaving the cache unchanged while the access
still completes (miss counted, update_on_miss still called). -/
def Simulator.access {σ : Type} (P : Policy σ) (s : SimState σ) (addr pc sharers : Nat)
    (state : MESI_State) : SimState σ :=
  let set_idx := (addr / 64) % NUM_SETS
  let tag := addr
  let cset := s.cache.getD set_idx []
  match findHitWay cset tag with
  | some w =>
    let line := cset.getD w default
    { s with
      hits := s.hits + 1,
      policyState := P.update_on_hit s.policyState set_idx w line,
      coherence_traffic_saved :=
        if line.state = MESI_State.MODIFIED ∨ 1 < line.sharers then
          s.coherence_traffic_saved + 1
        else s.coherence_traffic_saved }
  | none =>
    let vps := P.find_victim s.policyState set_idx cset pc sharers state
    let newline : CacheLine := ⟨true, tag, pc, sharers, state, 0, 3⟩
    { s with
      misses := s.misses + 1,
      cache :=
        if 0 ≤ vps.1 ∧ vps.1 < (WAYS : Int) then
          s.cache.set set_idx (cset.set vps.1.toNat newline)
        else s.cache,
      policyState := P.update_on_miss vps.2 set_idx vps.1 }

/-- One access of the driver's trace (address, pc, sharers, state). -/
structure AccessEvent where
  addr : Nat
  pc : Nat
  sharers : Nat
  state : MESI_State

/-- Running the simulator from construction over a trace of accesses. -/
def runSim {σ : Type} (P : Policy σ) (ps0 : σ) (tr : List AccessEvent) : SimState σ :=
  tr.foldl (fun s e => Simulator.access P s e.addr e.pc e.sharers e.state) (simInit ps0)

/-- The hit-rate expression printed by Simulator::print_stats (line 278):
`100.0 * hits / (hits + misses)`, with no guard on the denominator.  The
source computes this in C++ `double`, where a zero denominator yields NaN;
here the expression is carried over ℚ, whose division total-izes at zero, so
theorems about the zero-access case speak about the denominator itself. -/
def hitRatePercent {σ : Type} (s : SimState σ) : ℚ :=
  100 * (s.hits : ℚ) / ((s.hits : ℚ) + (s.misses : ℚ))

/-- A hypothetical policy returning the out-of-range way index WAYS, used to
examine how Simulator::access treats an out-of-range victim (claim C6). -/
def roguePolicy : Policy Unit where
  update_on_hit := fun u _ _ _ => u
  update_on_miss := fun u _ _ => u
  find_victim := fun u _ _ _ _ _ => ((WAYS : Int), u)

/-- A sequence of train calls as issued to one PerceptronBrain:
(pc, sharers, state, positive). -/
def trainRun (calls : List (Nat × Nat × MESI_State × Bool)) : List Int :=
  calls.foldl (fun ws c => train ws c.1 c.2.1 c.2.2.1 c.2.2.2) perceptronInit

/-- The concrete trace used to exhibit the sampler-ring overflow: nine
distinct tags, all mapping to (sampled) set 0. -/
def overflowTrace : List AccessEvent :=
  (List.range 9).map (fun k => ⟨4096 * k, 0, 0, MESI_State.EXCLUSIVE⟩)

/-! ## Generic list access lemmas -/

theorem getD_set_self {α : Type} (l : List α) (i : Nat) (a d : α) (h : i < l.length) :
    (l.set i a).getD i d = a := by
  simp [List.getD_eq_getElem?_getD, List.getElem?_set_self h]

theorem getD_set_ne {α : Type} (l : List α) {i j : Nat} (a d : α) (h : i ≠ j) :
    (l.set i a).getD j d = l.getD j d := by
  simp [List.getD_eq_getElem?_getD, List.getElem?_set_ne h]

theorem getD_map_lt {α β : Type} (f : α → β) (l : List α) (i : Nat) (d : α) (d' : β)
    (h : i < l.length) : (l.map f).getD i d' = f (l.getD i d) := by
  simp [List.getD_eq_getElem?_getD, List.getElem?_map, List.getElem?_eq_getElem h]

theorem getD_replicate {α : Type} {n i : Nat} (a d : α) (h : i < n) :
    (List.replicate n a).getD i d = a := by
  simp [List.getD_eq_getElem?_getD, List.getElem?_replicate, h]

theorem getD_range {n i : Nat} (d : Nat) (h : i < n) : (List.range n).getD i d = i := by
  simp [List.getD_eq_getElem?_getD, List.getElem?_range h]

theorem getD_of_length_le {α : Type} {l : List α} {i : Nat} (d : α) (h : l.length ≤ i) :
    l.getD i d = d := by
  simp [List.getD_eq_getElem?_getD, List.getElem?_eq_none h]

theorem getD_eq_get {α : Type} {l : List α} {i : Nat} (d : α) (h : i < l.length) :
    l.getD i d = l.get ⟨i, h⟩ := by
  simp [List.getD_eq_getElem?_getD, List.getElem?_eq_getElem h]

theorem getD_mem {α : Type} {l : List α} {i : Nat} (d : α) (h : i < l.length) :
    l.getD i d ∈ l := by
  rw [getD_eq_get d h]
  exact l.get_mem i h

/-! ## scanFirst characterization -/

theorem scanFirst_eq_some {p : Nat → Bool} {r w t : Nat}
    (hw : w ≤ t) (ht : t < w + r) (hp : p t = true)
    (hmin : ∀ j, w ≤ j → j < t → p j = false) :
    scanFirst p r w = some t := by
  induction r generalizing w with
  | zero => omega
  | succ r ih =>
    by_cases h : p w = true
    · have hwt : w = t := by
        rcases Nat.lt_or_ge w t with hlt | hge
        · have := hmin w (Nat.le_refl w) hlt
          rw [h] at this
          cases this
        · omega
      subst hwt
      simp [scanFirst, hp]
    · have h' : p w = false := by
        cases hpw : p w
        · rfl
        · exact absurd hpw h
      have hwt : w ≠ t := by
        intro e
        rw [e, hp] at h'
        cases h'
      simp only [scanFirst, h', Bool.false_eq_true, if_false]
      exact ih (by omega) (by omega) (fun j hj1 hj2 => hmin j (by omega) hj2)

theorem scanFirst_some_spec {p : Nat → Bool} {r w t : Nat}
    (h : scanFirst p r w = some t) :
    w ≤ t ∧ t < w + r ∧ p t = true ∧ ∀ j, w ≤ j → j < t → p j = false := by
  induction r generalizing w with
  | zero => cases h
  | succ r ih =>
    by_cases hp : p w = true
    · simp only [scanFirst, hp, if_true, Option.some.injEq] at h
      subst h
      exact ⟨Nat.le_refl _, by omega, hp, fun j hj1 hj2 => by omega⟩
    · have h' : p w = false := by
        cases hpw : p w
        · rfl
        · exact absurd hpw hp
      simp only [scanFirst, h', Bool.false_eq_true, if_false] at h
      obtain ⟨h1, h2, h3, h4⟩ := ih h
      refine ⟨by omega, by omega, h3, fun j hj1 hj2 => ?_⟩
      rcases Nat.eq_or_lt_of_le hj1 with e | hlt
      · rw [← e]; exact h'
      · exact h4 j hlt hj2

theorem scanFirst_eq_none {p : Nat → Bool} {r w : Nat}
    (h : ∀ j, w ≤ j → j < w + r → p j = false) :
    scanFirst p r w = none := by
  induction r generalizing w with
  | zero => rfl
  | succ r ih =>
    have h0 := h w (Nat.le_refl w) (by omega)
    simp only [scanFirst, h0, Bool.false_eq_true, if_false]
    exact ih (fun j hj1 hj2 => h j (by omega) (by omega))

theorem scanFirst_none_spec {p : Nat → Bool} {r w : Nat}
    (h : scanFirst p r w = none) : ∀ j, w ≤ j → j < w + r → p j = false := by
  induction r generalizing w with
  | zero => omega
  | succ r ih =>
    by_cases hp : p w = true
    · simp [scanFirst, hp] at h
    · have h' : p w = false := by
        cases hpw : p w
        · rfl
        · exact absurd hpw hp
      simp only [scanFirst, h', Bool.false_eq_true, if_false] at h
      intro j hj1 hj2
      rcases Nat.eq_or_lt_of_le hj1 with e | hlt
      · rw [← e]; exact h'
      · exact ih h j hlt (by omega)

/-! ## Perceptron weight bounds (claim C5) -/

theorem train_preserves_bounds {ws : List Int}
    (hb : ∀ x ∈ ws, -128 ≤ x ∧ x ≤ 127) (pc sharers : Nat) (st : MESI_State) (pos : Bool) :
    ∀ x ∈ train ws pc sharers st pos, -128 ≤ x ∧ x ≤ 127 := by
  unfold train
  intro x hx
  by_cases hidx : get_hash pc sharers st < ws.length
  · have hw := hb _ (getD_mem (0 : Int) hidx)
    cases pos with
    | true =>
      simp only [if_true] at hx
      by_cases hlt : ws.getD (get_hash pc sharers st) 0 < 127
      · rw [if_pos hlt] at hx
        rcases List.mem_or_eq_of_mem_set hx with hmem | he
        · exact hb x hmem
        · subst he; omega
      · rw [if_neg hlt] at hx
        exact hb x hx
    | false =>
      simp only [Bool.false_eq_true, if_false] at hx
      by_cases hlt : -128 < ws.getD (get_hash pc sharers st) 0
      · rw [if_pos hlt] at hx
        rcases List.mem_or_eq_of_mem_set hx with hmem | he
        · exact hb x hmem
        · subst he; omega
      · rw [if_neg hlt] at hx
        exact hb x hx
  · have hdef : ws.getD (get_hash pc sharers st) 0 = 0 :=
      getD_of_length_le 0 (by omega)
    cases pos with
    | true =>
      simp only [if_true, hdef] at hx
      rw [if_pos (by omega)] at hx
      rcases List.mem_or_eq_of_mem_set hx with hmem | he
      · exact hb x hmem
      · subst he; omega
    | false =>
      simp only [Bool.false_eq_true, if_false, hdef] at hx
      rw [if_pos (by omega)] at hx
      rcases List.mem_or_eq_of_mem_set hx with hmem | he
      · exact hb x hmem
      · subst he; omega

theorem trainRun_bounds (calls : List (Nat × Nat × MESI_State × Bool)) :
    ∀ x ∈ trainRun calls, -128 ≤ x ∧ x ≤ 127 := by
  have gen : ∀ (cs : List (Nat × Nat × MESI_State × Bool)) (ws : List Int),
      (∀ x ∈ ws, -128 ≤ x ∧ x ≤ 127) →
      ∀ x ∈ cs.foldl (fun ws c => train ws c.1 c.2.1 c.2.2.1 c.2.2.2) ws,
        -128 ≤ x ∧ x ≤ 127 := by
    intro cs
    induction cs with
    | nil => intro ws hb; exact hb
    | cons c cs ih =>
      intro ws hb
      exact ih _ (train_preserves_bounds hb c.1 c.2.1 c.2.2.1 c.2.2.2)
  refine gen calls perceptronInit ?_
  intro x hx
  have : x = 0 := List.eq_of_mem_replicate hx
  omega

/-- C5: every weight of the Perceptron Brain stays in [-128, 127] after any
sequence of train calls starting from the all-zero table: positive training
increments only below 127, negative training decrements only above -128, so
no weight can pass a bound or wrap. -/
theorem C5_weight_bounds (calls : List (Nat × Nat × MESI_State × Bool)) (i : Nat) :
    -128 ≤ (trainRun calls).getD i 0 ∧ (trainRun calls).getD i 0 ≤ 127 := by
  by_cases h : i < (trainRun calls).length
  · exact trainRun_bounds calls _ (getD_mem 0 h)
  · rw [getD_of_length_le 0 (by omega)]
    omega

/-! ## Degenerate statistics (claim C1) -/

/-- C1 (code evaluated at the failing input): a freshly constructed Simulator
has hits + misses = 0, which is exactly the denominator print_stats divides by
with no guard (the claim says a sentinel is reported instead; the source
performs `100.0 * hits / (hits + misses)` unconditionally, which is 0.0/0.0 =
NaN in C++ doubles at this state). -/
theorem C1_zero_access_denominator :
    (runSim LRU_Policy lruInit []).hits + (runSim LRU_Policy lruInit []).misses = 0 := rfl

/-! ## Out-of-range victim handling (claim C6) -/

/-- C6 (code evaluated at the failing input): with a policy whose find_victim
returns the out-of-range way WAYS = 8, Simulator::access still completes the
access as an ordinary miss — the miss counter is incremented and no rejection
or abort of any kind occurs (the source indexes `cache[set_idx][victim_way]`
with no range check at all, which is undefined behaviour in C++, not the
fatal rejection the claim describes). -/
theorem C6_no_rejection :
    (Simulator.access roguePolicy (simInit ()) 0 0 0 MESI_State.EXCLUSIVE).misses = 1 ∧
    (Simulator.access roguePolicy (simInit ()) 0 0 0 MESI_State.EXCLUSIVE).hits = 0 := by
  exact ⟨rfl, rfl⟩

/-! ## Sampler ring overflow (claim C2) -/

/-- C2 (code evaluated at the failing input): after nine misses to sampled set
0 (eight fill the ways, the ninth evicts with all ways valid), the set's
sampler holds 9 entries — one more than SAMPLER_SIZE = 8.  The source appends
with `push_back` and never drops anything, so the ring bound is not enforced. -/
theorem C2_ring_overflow :
    ((runSim COALESCE_Policy coalesceInit overflowTrace).policyState.samplers.getD 0 []).length
      = SAMPLER_SIZE + 1 := by
  rfl

/-! ## Hit-path frame property (claim C10) -/

/-- C10: on the hit path of Simulator::access (some valid line with matching
tag exists, found at way `w`), the cache — every field of every CacheLine —
is untouched, the miss counter is unchanged, the hit counter increments, the
policy state is updated only through update_on_hit (which receives the stored
line), the coherence-win counter is driven by the stored line's state and
sharer count, and the whole resulting state is independent of the incoming
pc/sharers/state arguments. -/
theorem C10_hit_frame {σ : Type} (P : Policy σ) (s : SimState σ) (addr pc sharers : Nat)
    (state : MESI_State) (w : Nat)
    (hhit : findHitWay (s.cache.getD ((addr / 64) % NUM_SETS) []) addr = some w) :
    (Simulator.access P s addr pc sharers state).cache = s.cache ∧
    (Simulator.access P s addr pc sharers state).hits = s.hits + 1 ∧
    (Simulator.access P s addr pc sharers state).misses = s.misses ∧
    (Simulator.access P s addr pc sharers state).policyState
      = P.update_on_hit s.policyState ((addr / 64) % NUM_SETS) w
          ((s.cache.getD ((addr / 64) % NUM_SETS) []).getD w default) ∧
    (Simulator.access P s addr pc sharers state).coherence_traffic_saved
      = (if ((s.cache.getD ((addr / 64) % NUM_SETS) []).getD w default).state
              = MESI_State.MODIFIED
            ∨ 1 < ((s.cache.getD ((addr / 64) % NUM_SETS) []).getD w default).sharers
         then s.coherence_traffic_saved + 1 else s.coherence_traffic_saved) ∧
    ∀ (pc' sharers' : Nat) (state' : MESI_State),
      Simulator.access P s addr pc' sharers' state' = Simulator.access P s addr pc sharers state := by
  simp only [Simulator.access]
  rw [hhit]
  exact ⟨rfl, rfl, rfl, rfl, rfl, fun _ _ _ => rfl⟩

/-- Witness for C10 at a concrete input: install address 5 (set 0) with one
access, then hit it; the hit counter of the second access increments. -/
theorem C10_hit_frame_witness :
    (Simulator.access LRU_Policy
        (runSim LRU_Policy lruInit [⟨5, 7, 3, MESI_State.MODIFIED⟩]) 5 1 2 MESI_State.SHARED).hits
      = (runSim LRU_Policy lruInit [⟨5, 7, 3, MESI_State.MODIFIED⟩]).hits + 1 :=
  (C10_hit_frame LRU_Policy (runSim LRU_Policy lruInit [⟨5, 7, 3, MESI_State.MODIFIED⟩])
    5 1 2 MESI_State.SHARED 0 (by decide)).2.1

/-! ## COALESCE victim-scan characterization (claims C3, C4) -/

theorem coalesceGo_inr {brain : List Int} {cset : List CacheLine} {r w t : Nat}
    (hw : w ≤ t) (ht : t < w + r)
    (hinv : (cset.getD t default).valid = false)
    (hval : ∀ j, w ≤ j → j < t → (cset.getD j default).valid = true) :
    ∀ victim min_vote, coalesceGo brain cset r w victim min_vote = Sum.inr t := by
  induction r generalizing w with
  | zero => omega
  | succ r ih =>
    intro victim min_vote
    by_cases hwt : w = t
    · subst hwt
      simp only [coalesceGo]
      rw [if_neg (by rw [hinv]; exact Bool.false_ne_true)]
    · have hv : (cset.getD w default).valid = true := hval w (Nat.le_refl w) (by omega)
      simp only [coalesceGo]
      rw [if_pos hv]
      by_cases hc : coalesceVote brain (cset.getD w default) < min_vote
      · rw [if_pos hc]
        exact ih (by omega) (by omega) (fun j hj1 hj2 => hval j (by omega) hj2) _ _
      · rw [if_neg hc]
        exact ih (by omega) (by omega) (fun j hj1 hj2 => hval j (by omega) hj2) _ _

theorem coalesceGo_inl {brain : List Int} {cset : List CacheLine} {r w : Nat}
    (hval : ∀ j, w ≤ j → j < w + r → (cset.getD j default).valid = true) :
    ∀ victim min_vote, ∃ v m,
      coalesceGo brain cset r w victim min_vote = Sum.inl (v, m) ∧
      m ≤ min_vote ∧
      (∀ j, w ≤ j → j < w + r → m ≤ coalesceVote brain (cset.getD j default)) ∧
      ((v = victim ∧ m = min_vote) ∨
        ∃ j, w ≤ j ∧ j < w + r ∧ v = (j : Int) ∧
          m = coalesceVote brain (cset.getD j default)) := by
  induction r generalizing w with
  | zero =>
    intro victim min_vote
    exact ⟨victim, min_vote, rfl, le_refl _, fun j hj1 hj2 => by omega,
      Or.inl ⟨rfl, rfl⟩⟩
  | succ r ih =>
    intro victim min_vote
    have hv : (cset.getD w default).valid = true := hval w (Nat.le_refl w) (by omega)
    have hval' : ∀ j, w + 1 ≤ j → j < (w + 1) + r → (cset.getD j default).valid = true :=
      fun j hj1 hj2 => hval j (by omega) (by omega)
    by_cases hc : coalesceVote brain (cset.getD w default) < min_vote
    · obtain ⟨v, m, heq, hle, hall, hdisj⟩ :=
        ih hval' (w : Int) (coalesceVote brain (cset.getD w default))
      refine ⟨v, m, ?_, by omega, ?_, ?_⟩
      · simp only [coalesceGo]
        rw [if_pos hv, if_pos hc]
        exact heq
      · intro j hj1 hj2
        rcases Nat.eq_or_lt_of_le hj1 with e | hlt
        · rw [← e]; omega
        · exact hall j hlt (by omega)
      · rcases hdisj with ⟨hv1, hm1⟩ | ⟨j, hj1, hj2, hj3, hj4⟩
        · exact Or.inr ⟨w, Nat.le_refl w, by omega, hv1, hm1⟩
        · exact Or.inr ⟨j, by omega, by omega, hj3, hj4⟩
    · obtain ⟨v, m, heq, hle, hall, hdisj⟩ := ih hval' victim min_vote
      refine ⟨v, m, ?_, hle, ?_, ?_⟩
      · simp only [coalesceGo]
        rw [if_pos hv, if_neg hc]
        exact heq
      · intro j hj1 hj2
        rcases Nat.eq_or_lt_of_le hj1 with e | hlt
        · rw [← e]; omega
        · exact hall j hlt (by omega)
      · rcases hdisj with h | ⟨j, hj1, hj2, hj3, hj4⟩
        · exact Or.inl h
        · exact Or.inr ⟨j, by omega, by omega, hj3, hj4⟩

/-- C4: with all ways valid, if way A's line is Modified, way B's line is not,
and their raw predicted scores are equal, COALESCE never selects A — the +60
Modified bonus strictly dominates the only other adjustment (+30), so A's
adjusted vote is strictly above B's and the strict-minimum scan cannot land on
A. -/
theorem C4_modified_dominates (br : List Int) (smp : List (List SamplerEntry))
    (set_idx : Nat) (cset : List CacheLine) (A B : Nat) (pc sharers : Nat) (st : MESI_State)
    (hA : A < WAYS) (hB : B < WAYS) (hAB : A ≠ B)
    (hval : ∀ j, j < WAYS → (cset.getD j default).valid = true)
    (hmA : (cset.getD A default).state = MESI_State.MODIFIED)
    (hmB : (cset.getD B default).state ≠ MESI_State.MODIFIED)
    (heq : predict br (cset.getD A default).pc (cset.getD A default).sharers
             (cset.getD A default).state
         = predict br (cset.getD B default).pc (cset.getD B default).sharers
             (cset.getD B default).state) :
    (COALESCE_Policy.find_victim ⟨br, smp⟩ set_idx cset pc sharers st).1 ≠ (A : Int) := by
  have hvotes : coalesceVote br (cset.getD B default) < coalesceVote br (cset.getD A default) := by
    unfold coalesceVote
    rw [heq]
    simp only [hmA, if_pos rfl, if_neg hmB]
    split_ifs <;> omega
  obtain ⟨v, m, hgo, hle, hall, hdisj⟩ :=
    @coalesceGo_inl br cset WAYS 0
      (fun j hj1 hj2 => hval j (by omega)) (-1) 99999
  have hvne : v ≠ (A : Int) := by
    rcases hdisj with ⟨hv1, _⟩ | ⟨j, _, hj2, hj3, hj4⟩
    · rw [hv1]
      intro hcon
      omega
    · intro hcon
      rw [hcon] at hj3
      have hjA : j = A := by omega
      subst hjA
      have h1 : m ≤ coalesceVote br (cset.getD B default) := hall B (by omega) (by omega)
      rw [hj4] at h1
      omega
  show (COALESCE_Policy.find_victim ⟨br, smp⟩ set_idx cset pc sharers st).1 ≠ (A : Int)
  simp only [COALESCE_Policy, coalesceFindVictim, hgo]
  split_ifs <;> simpa using hvne

/-- A concrete all-valid set for the C4 and C9 witnesses: way 0 Modified,
the rest Exclusive, all with pc 0 and 0 sharers. -/
def witnessSet : List CacheLine :=
  ⟨true, 0, 0, 0, MESI_State.MODIFIED, 0, 3⟩ ::
    (List.range 7).map (fun j => ⟨true, j + 1, 0, 0, MESI_State.EXCLUSIVE, 0, 3⟩)

/-- Witness for C4 at a concrete input: zero weight table, way 0 Modified,
way 1 Exclusive, equal (zero) raw scores — way 0 is not the victim. -/
theorem C4_modified_dominates_witness :
    (COALESCE_Policy.find_victim ⟨perceptronInit, []⟩ 0 witnessSet 0 0
        MESI_State.EXCLUSIVE).1 ≠ ((0 : Nat) : Int) :=
  C4_modified_dominates perceptronInit [] 0 witnessSet 0 1 0 0 MESI_State.EXCLUSIVE
    (by decide) (by decide) (by decide) (by decide) (by decide) (by decide) (by decide)

/-! ## SRRIP termination (claim C9) -/

/-- The minimum rrpv value over the 8 ways (reads with the source's accessor
default 3). -/
def minRr (rr : List Nat) : Nat :=
  min (rr.getD 0 3) (min (rr.getD 1 3) (min (rr.getD 2 3) (min (rr.getD 3 3)
    (min (rr.getD 4 3) (min (rr.getD 5 3) (min (rr.getD 6 3) (rr.getD 7 3)))))))

theorem minRr_le {rr : List Nat} {w : Nat} (hw : w < WAYS) : minRr rr ≤ rr.getD w 3 := by
  unfold minRr
  have : w < 8 := hw
  interval_cases w <;> omega

theorem srripAge_getD {rr : List Nat} {w : Nat} (hlt : rr.getD w 3 < 3) :
    (srripAge rr).getD w 3 = rr.getD w 3 + 1 := by
  have hw : w < rr.length := by
    by_contra hcon
    rw [getD_of_length_le 3 (by omega)] at hlt
    omega
  unfold srripAge
  rw [getD_map_lt _ _ _ 3 _ hw, if_pos hlt]

theorem srripAge_getD_le {rr : List Nat} {w : Nat} (hb : rr.getD w 3 ≤ 3) :
    (srripAge rr).getD w 3 ≤ 3 := by
  by_cases hw : w < rr.length
  · unfold srripAge
    rw [getD_map_lt _ _ _ 3 _ hw]
    split_ifs <;> omega
  · unfold srripAge
    rw [getD_of_length_le 3 (by simp; omega)]

theorem srripLoop_isSome {cset : List CacheLine}
    (hval : ∀ w, w < WAYS → (cset.getD w default).valid = true) :
    ∀ (n : Nat) (rr : List Nat), (∀ w, w < WAYS → rr.getD w 3 ≤ 3) →
      3 ≤ minRr rr + n → (srripLoop cset (n + 1) rr).isSome = true := by
  intro n
  induction n with
  | zero =>
    intro rr hb hm
    have h0 : rr.getD 0 3 = 3 := by
      have h1 := @minRr_le rr 0 (by decide)
      have h2 := hb 0 (by decide)
      omega
    have hscan : srripScan rr cset = some 0 := by
      unfold srripScan
      refine scanFirst_eq_some (Nat.le_refl 0) (by decide) ?_ (fun j hj1 hj2 => by omega)
      show ((!(cset.getD 0 default).valid) || (rr.getD 0 3 == 3)) = true
      rw [h0]
      simp
    simp only [srripLoop, hscan]
    rfl
  | succ n ih =>
    intro rr hb hm
    cases hscan : srripScan rr cset with
    | some w =>
      simp only [srripLoop, hscan]
      rfl
    | none =>
      have hfail : ∀ w, w < WAYS →
          ((!(cset.getD w default).valid) || (rr.getD w 3 == 3)) = false :=
        fun w hw => scanFirst_none_spec hscan w (Nat.zero_le w) (by omega)
      have hlt : ∀ w, w < WAYS → rr.getD w 3 < 3 := by
        intro w hw
        have hp := hfail w hw
        rw [hval w hw] at hp
        simp only [Bool.not_true, Bool.false_or] at hp
        have hne : rr.getD w 3 ≠ 3 := ne_of_beq_false hp
        have := hb w hw
        omega
      have hage : ∀ w, w < WAYS → (srripAge rr).getD w 3 = rr.getD w 3 + 1 :=
        fun w hw => srripAge_getD (hlt w hw)
      have hmin : minRr (srripAge rr) = minRr rr + 1 := by
        unfold minRr
        rw [hage 0 (by decide), hage 1 (by decide), hage 2 (by decide), hage 3 (by decide),
          hage 4 (by decide), hage 5 (by decide), hage 6 (by decide), hage 7 (by decide)]
        omega
      have hres : srripLoop cset (n + 1 + 1) rr = srripLoop cset (n + 1) (srripAge rr) := by
        simp only [srripLoop, hscan]
      rw [hres]
      exact ih (srripAge rr) (fun w hw => srripAge_getD_le (hb w hw)) (by omega)

/-- C9: SRRIP victim selection terminates.  If every way is valid (no empty
slot) and no way is at rrpv 3, the aging loop reaches a way with rrpv 3 within
(3 − minimum current rrpv) aging rounds: with that many rounds plus the final
scan as fuel, srripLoop returns a victim; in particular fuel 4 always
suffices. -/
theorem C9_srrip_terminates (cset : List CacheLine) (rr : List Nat)
    (hval : ∀ w, w < WAYS → (cset.getD w default).valid = true)
    (hb : ∀ w, w < WAYS → rr.getD w 3 ≤ 3)
    (_hno3 : ∀ w, w < WAYS → rr.getD w 3 ≠ 3) :
    (srripLoop cset ((3 - minRr rr) + 1) rr).isSome = true ∧
    (srripLoop cset 4 rr).isSome = true := by
  have hm0 : minRr rr ≤ 3 := le_trans (@minRr_le rr 0 (by decide)) (hb 0 (by decide))
  constructor
  · exact srripLoop_isSome hval (3 - minRr rr) rr hb (by omega)
  · have h4 : (4 : Nat) = 3 + 1 := rfl
    rw [h4]
    exact srripLoop_isSome hval 3 rr hb (by omega)

/-- Witness for C9 at a concrete input: all ways valid, all rrpv 0 — the loop
returns a victim within the bound. -/
theorem C9_srrip_terminates_witness :
    (srripLoop witnessSet ((3 - minRr (List.replicate 8 0)) + 1) (List.replicate 8 0)).isSome
        = true ∧
    (srripLoop witnessSet 4 (List.replicate 8 0)).isSome = true :=
  C9_srrip_terminates witnessSet (List.replicate 8 0) (by decide) (by decide) (by decide)

/-! ## Access-path rewriting and trace induction -/

theorem access_hit_eq {σ : Type} (P : Policy σ) (s : SimState σ) (addr pc sharers : Nat)
    (state : MESI_State) (w : Nat)
    (hhit : findHitWay (s.cache.getD ((addr / 64) % NUM_SETS) []) addr = some w) :
    Simulator.access P s addr pc sharers state =
      { s with
        hits := s.hits + 1,
        policyState := P.update_on_hit s.policyState ((addr / 64) % NUM_SETS) w
          ((s.cache.getD ((addr / 64) % NUM_SETS) []).getD w default),
        coherence_traffic_saved :=
          if ((s.cache.getD ((addr / 64) % NUM_SETS) []).getD w default).state
                = MESI_State.MODIFIED
              ∨ 1 < ((s.cache.getD ((addr / 64) % NUM_SETS) []).getD w default).sharers
          then s.coherence_traffic_saved + 1 else s.coherence_traffic_saved } := by
  simp only [Simulator.access]
  rw [hhit]

theorem access_miss_eq {σ : Type} (P : Policy σ) (s : SimState σ) (addr pc sharers : Nat)
    (state : MESI_State)
    (hmiss : findHitWay (s.cache.getD ((addr / 64) % NUM_SETS) []) addr = none) :
    Simulator.access P s addr pc sharers state =
      { s with
        misses := s.misses + 1,
        cache :=
          if 0 ≤ (P.find_victim s.policyState ((addr / 64) % NUM_SETS)
                    (s.cache.getD ((addr / 64) % NUM_SETS) []) pc sharers state).1
              ∧ (P.find_victim s.policyState ((addr / 64) % NUM_SETS)
                    (s.cache.getD ((addr / 64) % NUM_SETS) []) pc sharers state).1 < (WAYS : Int)
          then s.cache.set ((addr / 64) % NUM_SETS)
                 ((s.cache.getD ((addr / 64) % NUM_SETS) []).set
                   (P.find_victim s.policyState ((addr / 64) % NUM_SETS)
                     (s.cache.getD ((addr / 64) % NUM_SETS) []) pc sharers state).1.toNat
                   ⟨true, addr, pc, sharers, state, 0, 3⟩)
          else s.cache,
        policyState := P.update_on_miss
          (P.find_victim s.policyState ((addr / 64) % NUM_SETS)
            (s.cache.getD ((addr / 64) % NUM_SETS) []) pc sharers state).2
          ((addr / 64) % NUM_SETS)
          (P.find_victim s.policyState ((addr / 64) % NUM_SETS)
            (s.cache.getD ((addr / 64) % NUM_SETS) []) pc sharers state).1 } := by
  simp only [Simulator.access]
  rw [hmiss]

theorem foldl_access_inv {σ : Type} (P : Policy σ) (Inv : SimState σ → Prop)
    (hstep : ∀ (s : SimState σ) (e : AccessEvent),
      Inv s → Inv (Simulator.access P s e.addr e.pc e.sharers e.state))
    (tr : List AccessEvent) :
    ∀ s, Inv s →
      Inv (tr.foldl
        (fun (s : SimState σ) (e : AccessEvent) =>
          Simulator.access P s e.addr e.pc e.sharers e.state) s) := by
  induction tr with
  | nil => intro s h; exact h
  | cons e tr ih => intro s h; exact ih _ (hstep s e h)

theorem setIdx_lt (addr : Nat) : (addr / 64) % NUM_SETS < NUM_SETS :=
  Nat.mod_lt _ (by decide)

/-! ## Cache shape invariant -/

def cacheWF (c : List (List CacheLine)) : Prop :=
  c.length = NUM_SETS ∧ ∀ i, i < NUM_SETS → (c.getD i []).length = WAYS

theorem cacheWF_init {σ : Type} (ps : σ) : cacheWF (simInit ps).cache := by
  constructor
  · simp [simInit]
  · intro i hi
    have he : (simInit ps).cache = List.replicate NUM_SETS (List.replicate WAYS {}) := rfl
    rw [he, getD_replicate _ _ hi]
    simp

theorem cacheWF_access {σ : Type} (P : Policy σ) (s : SimState σ) (addr pc sharers : Nat)
    (state : MESI_State) (h : cacheWF s.cache) :
    cacheWF (Simulator.access P s addr pc sharers state).cache := by
  cases hhit : findHitWay (s.cache.getD ((addr / 64) % NUM_SETS) []) addr with
  | some w =>
    rw [access_hit_eq P s addr pc sharers state w hhit]
    exact h
  | none =>
    rw [access_miss_eq P s addr pc sharers state hhit]
    by_cases hv : 0 ≤ (P.find_victim s.policyState ((addr / 64) % NUM_SETS)
          (s.cache.getD ((addr / 64) % NUM_SETS) []) pc sharers state).1
        ∧ (P.find_victim s.policyState ((addr / 64) % NUM_SETS)
            (s.cache.getD ((addr / 64) % NUM_SETS) []) pc sharers state).1 < (WAYS : Int)
    · simp only [if_pos hv]
      constructor
      · rw [List.length_set]
        exact h.1
      · intro i hi
        by_cases he : (addr / 64) % NUM_SETS = i
        · subst he
          rw [getD_set_self _ _ _ _ (by rw [h.1]; exact setIdx_lt addr), List.length_set]
          exact h.2 _ (setIdx_lt addr)
        · rw [getD_set_ne _ _ _ he]
          exact h.2 i hi
    · simp only [if_neg hv]
      exact h

/-! ## Per-set tag uniqueness (claim C7) -/

def tagsUnique (c : List (List CacheLine)) : Prop :=
  ∀ i, i < NUM_SETS → ∀ w1 w2, w1 < WAYS → w2 < WAYS → w1 ≠ w2 →
    ((c.getD i []).getD w1 default).valid = true →
    ((c.getD i []).getD w2 default).valid = true →
    ((c.getD i []).getD w1 default).tag ≠ ((c.getD i []).getD w2 default).tag

theorem tagsUnique_init {σ : Type} (ps : σ) : tagsUnique (simInit ps).cache := by
  intro i hi w1 w2 h1 h2 hne hv1 hv2
  exfalso
  have he : (simInit ps).cache = List.replicate NUM_SETS (List.replicate WAYS {}) := rfl
  rw [he, getD_replicate _ _ hi, getD_replicate _ _ h1] at hv1
  exact absurd hv1 (by decide)

theorem findHitWay_none_spec {cset : List CacheLine} {tag : Nat}
    (h : findHitWay cset tag = none) :
    ∀ w, w < WAYS → ((cset.getD w default).valid = true → (cset.getD w default).tag ≠ tag) := by
  intro w hw hv
  have hp : ((cset.getD w default).valid && ((cset.getD w default).tag == tag)) = false :=
    scanFirst_none_spec h w (Nat.zero_le w) (by omega)
  rw [hv, Bool.true_and] at hp
  exact ne_of_beq_false hp

theorem findHitWay_some_spec {cset : List CacheLine} {tag : Nat} {w : Nat}
    (h : findHitWay cset tag = some w) :
    w < WAYS ∧ (cset.getD w default).valid = true ∧ (cset.getD w default).tag = tag := by
  obtain ⟨h1, h2, h3, h4⟩ := scanFirst_some_spec h
  have hp : ((cset.getD w default).valid && ((cset.getD w default).tag == tag)) = true := h3
  rw [Bool.and_eq_true] at hp
  exact ⟨by omega, hp.1, eq_of_beq hp.2⟩

theorem tagsUnique_access {σ : Type} (P : Policy σ) (s : SimState σ) (addr pc sharers : Nat)
    (state : MESI_State) (hwf : cacheWF s.cache) (h : tagsUnique s.cache) :
    tagsUnique (Simulator.access P s addr pc sharers state).cache := by
  cases hhit : findHitWay (s.cache.getD ((addr / 64) % NUM_SETS) []) addr with
  | some w =>
    rw [access_hit_eq P s addr pc sharers state w hhit]
    exact h
  | none =>
    rw [access_miss_eq P s addr pc sharers state hhit]
    by_cases hv : 0 ≤ (P.find_victim s.policyState ((addr / 64) % NUM_SETS)
          (s.cache.getD ((addr / 64) % NUM_SETS) []) pc sharers state).1
        ∧ (P.find_victim s.policyState ((addr / 64) % NUM_SETS)
            (s.cache.getD ((addr / 64) % NUM_SETS) []) pc sharers state).1 < (WAYS : Int)
    · simp only [if_pos hv]
      intro i hi w1 w2 h1 h2 hne hv1 hv2
      by_cases he : (addr / 64) % NUM_SETS = i
      · subst he
        set t := (P.find_victim s.policyState ((addr / 64) % NUM_SETS)
          (s.cache.getD ((addr / 64) % NUM_SETS) []) pc sharers state).1.toNat with ht
        have htlt : t < WAYS := by
          have := hv.2
          omega
        have hcl : (s.cache.getD ((addr / 64) % NUM_SETS) []).length = WAYS :=
          hwf.2 _ (setIdx_lt addr)
        have hset : ((s.cache.set ((addr / 64) % NUM_SETS)
            ((s.cache.getD ((addr / 64) % NUM_SETS) []).set t
              ⟨true, addr, pc, sharers, state, 0, 3⟩)).getD ((addr / 64) % NUM_SETS) [])
            = (s.cache.getD ((addr / 64) % NUM_SETS) []).set t
              ⟨true, addr, pc, sharers, state, 0, 3⟩ :=
          getD_set_self _ _ _ _ (by rw [hwf.1]; exact setIdx_lt addr)
        rw [hset] at hv1 hv2 ⊢
        have hmiss := findHitWay_none_spec hhit
        by_cases he1 : w1 = t
        · have he2 : w2 ≠ t := fun e => hne (he1.trans e.symm)
          rw [he1, getD_set_self _ _ _ _ (by omega)] at hv1 ⊢
          rw [getD_set_ne _ _ _ (fun e => he2 e.symm)] at hv2 ⊢
          intro hcon
          exact hmiss w2 h2 hv2 (by rw [← hcon])
        · rw [getD_set_ne _ _ _ (fun e => he1 e.symm)] at hv1 ⊢
          by_cases he2 : w2 = t
          · rw [he2, getD_set_self _ _ _ _ (by omega)] at hv2 ⊢
            intro hcon
            exact hmiss w1 h1 hv1 hcon
          · rw [getD_set_ne _ _ _ (fun e => he2 e.symm)] at hv2 ⊢
            exact h _ (setIdx_lt addr) w1 w2 h1 h2 hne hv1 hv2
      · rw [getD_set_ne _ _ _ he] at hv1 hv2 ⊢
        exact h i hi w1 w2 h1 h2 hne hv1 hv2
    · simp only [if_neg hv]
      exact h

theorem run_cacheWF_tagsUnique {σ : Type} (P : Policy σ) (ps0 : σ) (tr : List AccessEvent) :
    cacheWF (runSim P ps0 tr).cache ∧ tagsUnique (runSim P ps0 tr).cache := by
  refine foldl_access_inv P (fun s => cacheWF s.cache ∧ tagsUnique s.cache) ?_ tr _
    ⟨cacheWF_init ps0, tagsUnique_init ps0⟩
  intro s e hs
  exact ⟨cacheWF_access P s e.addr e.pc e.sharers e.state hs.1,
    tagsUnique_access P s e.addr e.pc e.sharers e.state hs.1 hs.2⟩

/-- C7: under each of the three policies, for every access trace from the
all-invalid cache, within any one set at most one valid line carries any given
tag. -/
theorem C7_tag_uniqueness (tr : List AccessEvent) (i w1 w2 : Nat)
    (hi : i < NUM_SETS) (h1 : w1 < WAYS) (h2 : w2 < WAYS) (hne : w1 ≠ w2) :
    ((((runSim LRU_Policy lruInit tr).cache.getD i []).getD w1 default).valid = true →
      (((runSim LRU_Policy lruInit tr).cache.getD i []).getD w2 default).valid = true →
      (((runSim LRU_Policy lruInit tr).cache.getD i []).getD w1 default).tag
        ≠ (((runSim LRU_Policy lruInit tr).cache.getD i []).getD w2 default).tag) ∧
    ((((runSim SRRIP_Policy srripInit tr).cache.getD i []).getD w1 default).valid = true →
      (((runSim SRRIP_Policy srripInit tr).cache.getD i []).getD w2 default).valid = true →
      (((runSim SRRIP_Policy srripInit tr).cache.getD i []).getD w1 default).tag
        ≠ (((runSim SRRIP_Policy srripInit tr).cache.getD i []).getD w2 default).tag) ∧
    ((((runSim COALESCE_Policy coalesceInit tr).cache.getD i []).getD w1 default).valid = true →
      (((runSim COALESCE_Policy coalesceInit tr).cache.getD i []).getD w2 default).valid = true →
      (((runSim COALESCE_Policy coalesceInit tr).cache.getD i []).getD w1 default).tag
        ≠ (((runSim COALESCE_Policy coalesceInit tr).cache.getD i []).getD w2 default).tag) :=
  ⟨fun hv1 hv2 =>
      (run_cacheWF_tagsUnique LRU_Policy lruInit tr).2 i hi w1 w2 h1 h2 hne hv1 hv2,
    fun hv1 hv2 =>
      (run_cacheWF_tagsUnique SRRIP_Policy srripInit tr).2 i hi w1 w2 h1 h2 hne hv1 hv2,
    fun hv1 hv2 =>
      (run_cacheWF_tagsUnique COALESCE_Policy coalesceInit tr).2 i hi w1 w2 h1 h2 hne hv1 hv2⟩

/-- Witness for C7 at a concrete input: two accesses with distinct tags that
land in set 0 under LRU occupy ways 0 and 1; their stored tags differ. -/
theorem C7_tag_uniqueness_witness :
    (((runSim LRU_Policy lruInit
          [⟨0, 0, 0, MESI_State.EXCLUSIVE⟩, ⟨4096, 0, 0, MESI_State.EXCLUSIVE⟩]).cache.getD 0
        []).getD 0 default).tag
      ≠ (((runSim LRU_Policy lruInit
          [⟨0, 0, 0, MESI_State.EXCLUSIVE⟩, ⟨4096, 0, 0, MESI_State.EXCLUSIVE⟩]).cache.getD 0
        []).getD 1 default).tag :=
  (C7_tag_uniqueness [⟨0, 0, 0, MESI_State.EXCLUSIVE⟩, ⟨4096, 0, 0, MESI_State.EXCLUSIVE⟩]
    0 0 1 (by decide) (by decide) (by decide) (by decide)).1 (by decide) (by decide)

/-! ## LRU recency-stack invariant (claims C3, C8) -/

theorem lruTouch_length (rs : List Nat) (way : Nat) : (lruTouch rs way).length = rs.length := by
  unfold lruTouch
  rw [List.length_set, List.length_map]

theorem lruTouch_getD_self {rs : List Nat} {way : Nat} (h : way < rs.length) :
    (lruTouch rs way).getD way 0 = 0 := by
  unfold lruTouch
  exact getD_set_self _ _ _ _ (by rw [List.length_map]; exact h)

theorem lruTouch_getD_other {rs : List Nat} {way v : Nat} (hv : v < rs.length) (hne : v ≠ way) :
    (lruTouch rs way).getD v 0
      = if rs.getD v 0 < rs.getD way 0 then rs.getD v 0 + 1 else rs.getD v 0 := by
  unfold lruTouch
  rw [getD_set_ne _ _ _ (fun e => hne e.symm), getD_map_lt _ _ _ 0 _ hv]

/-- The per-set LRU invariant: rank values below WAYS, injective across ways
(hence a permutation of 0..WAYS-1), the valid ways forming a prefix 0..k-1,
and each still-invalid way w ≥ k keeping its constructor rank w. -/
def lruSetInv (L : List CacheLine) (R : List Nat) : Prop :=
  L.length = WAYS ∧ R.length = WAYS ∧
  (∀ w, w < WAYS → R.getD w 0 < WAYS) ∧
  (∀ a b, a < WAYS → b < WAYS → R.getD a 0 = R.getD b 0 → a = b) ∧
  ∃ k, k ≤ WAYS ∧ (∀ w, w < WAYS → ((L.getD w default).valid = true ↔ w < k)) ∧
    ∀ w, k ≤ w → w < WAYS → R.getD w 0 = w

theorem lru_rank_lt_k {R : List Nat} {k : Nat}
    (hbd : ∀ w, w < WAYS → R.getD w 0 < WAYS)
    (hinj : ∀ a b, a < WAYS → b < WAYS → R.getD a 0 = R.getD b 0 → a = b)
    (hsuf : ∀ w, k ≤ w → w < WAYS → R.getD w 0 = w)
    {w : Nat} (hw : w < WAYS) (hwk : w < k) : R.getD w 0 < k := by
  by_contra hcon
  push_neg at hcon
  have h1 : R.getD (R.getD w 0) 0 = R.getD w 0 := hsuf _ hcon (hbd w hw)
  have h2 : w = R.getD w 0 := hinj w (R.getD w 0) hw (hbd w hw) h1.symm
  omega

theorem lruTouch_bounds {R : List Nat} (hlen : R.length = WAYS)
    (hbd : ∀ w, w < WAYS → R.getD w 0 < WAYS) {way : Nat} (hway : way < WAYS) :
    ∀ w, w < WAYS → (lruTouch R way).getD w 0 < WAYS := by
  intro w hw
  by_cases he : w = way
  · subst he
    rw [lruTouch_getD_self (by omega)]
    decide
  · rw [lruTouch_getD_other (by omega) he]
    have h1 := hbd w hw
    have h2 := hbd way hway
    split_ifs <;> omega

theorem lruTouch_inj {R : List Nat} (hlen : R.length = WAYS)
    (_hbd : ∀ w, w < WAYS → R.getD w 0 < WAYS)
    (hinj : ∀ a b, a < WAYS → b < WAYS → R.getD a 0 = R.getD b 0 → a = b)
    {way : Nat} (hway : way < WAYS) :
    ∀ a b, a < WAYS → b < WAYS →
      (lruTouch R way).getD a 0 = (lruTouch R way).getD b 0 → a = b := by
  intro a b ha hb heq
  by_cases hea : a = way <;> by_cases heb : b = way
  · omega
  · subst hea
    rw [lruTouch_getD_self (by omega), lruTouch_getD_other (by omega) heb] at heq
    split_ifs at heq with h
    all_goals first
      | omega
      | exact (hinj b a hb ha (by omega)).symm
  · subst heb
    rw [lruTouch_getD_self (by omega), lruTouch_getD_other (by omega) hea] at heq
    split_ifs at heq with h
    all_goals first
      | omega
      | exact hinj a b ha hb (by omega)
  · rw [lruTouch_getD_other (by omega) hea, lruTouch_getD_other (by omega) heb] at heq
    split_ifs at heq with h1 h2 h2
    · exact hinj a b ha hb (by omega)
    · have hbw : R.getD b 0 = R.getD way 0 := by omega
      exact absurd (hinj b way hb hway hbw) heb
    · have haw : R.getD a 0 = R.getD way 0 := by omega
      exact absurd (hinj a way ha hway haw) hea
    · exact hinj a b ha hb (by omega)

theorem lruSetInv_touch_valid {L : List CacheLine} {R : List Nat} (inv : lruSetInv L R)
    {w : Nat} (hw : w < WAYS) (hv : (L.getD w default).valid = true) :
    lruSetInv L (lruTouch R w) := by
  obtain ⟨hL, hR, hbd, hinj, k, hk, hvk, hsuf⟩ := inv
  have hwk : w < k := (hvk w hw).mp hv
  have hold : R.getD w 0 < k := lru_rank_lt_k hbd hinj hsuf hw hwk
  refine ⟨hL, by rw [lruTouch_length]; exact hR, lruTouch_bounds hR hbd hw,
    lruTouch_inj hR hbd hinj hw, k, hk, hvk, ?_⟩
  intro v hkv hv8
  have hne : v ≠ w := by omega
  rw [lruTouch_getD_other (by omega) hne]
  have hRv : R.getD v 0 = v := hsuf v hkv hv8
  rw [hRv, if_neg (by omega)]

theorem lruFindVictim_lt (R : List Nat) (L : List CacheLine) :
    ∃ t, t < WAYS ∧ lruFindVictim R L = (t : Int) := by
  unfold lruFindVictim
  cases hs : scanFirst
      (fun w => (!(L.getD w default).valid) || (R.getD w 0 == WAYS - 1)) WAYS 0 with
  | some w =>
    refine ⟨w, ?_, rfl⟩
    have := (scanFirst_some_spec hs).2.1
    omega
  | none => exact ⟨0, by decide, rfl⟩

theorem lruFindVictim_invalid {L : List CacheLine} {R : List Nat} (inv : lruSetInv L R)
    (hinv : ∃ w, w < WAYS ∧ (L.getD w default).valid = false) :
    ∃ t, t < WAYS ∧ lruFindVictim R L = (t : Int) ∧ (L.getD t default).valid = false ∧
      ∀ j, j < t → (L.getD j default).valid = true := by
  obtain ⟨hL, hR, hbd, hinj, k, hk, hvk, hsuf⟩ := inv
  obtain ⟨w0, hw0, hw0inv⟩ := hinv
  have hklt : k < WAYS := by
    by_contra hcon
    have hlt : w0 < k := by omega
    have := (hvk w0 hw0).mpr hlt
    rw [hw0inv] at this
    cases this
  have hkinv : (L.getD k default).valid = false := by
    cases hvb : (L.getD k default).valid
    · rfl
    · have := (hvk k hklt).mp hvb
      omega
  have hscan : scanFirst
      (fun w => (!(L.getD w default).valid) || (R.getD w 0 == WAYS - 1)) WAYS 0 = some k := by
    refine scanFirst_eq_some (Nat.zero_le k) (by omega) ?_ ?_
    · show ((!(L.getD k default).valid) || (R.getD k 0 == WAYS - 1)) = true
      rw [hkinv]
      simp
    · intro j hj0 hjk
      show ((!(L.getD j default).valid) || (R.getD j 0 == WAYS - 1)) = false
      have hjv : (L.getD j default).valid = true := (hvk j (by omega)).mpr (by omega)
      have hjr : R.getD j 0 < k := lru_rank_lt_k hbd hinj hsuf (by omega) hjk
      rw [hjv]
      simp only [Bool.not_true, Bool.false_or]
      exact beq_eq_false_iff_ne.mpr (by omega)
  unfold lruFindVictim
  rw [hscan]
  exact ⟨k, hklt, rfl, hkinv, fun j hj => (hvk j (by omega)).mpr hj⟩

theorem lruSetInv_install {L : List CacheLine} {R : List Nat} (inv : lruSetInv L R)
    (line : CacheLine) (hline : line.valid = true) :
    ∃ t, t < WAYS ∧ lruFindVictim R L = (t : Int) ∧
      lruSetInv (L.set t line) (lruTouch R t) := by
  by_cases hinv : ∃ w, w < WAYS ∧ (L.getD w default).valid = false
  · obtain ⟨t, ht, hvic, htinv, hfirst⟩ := lruFindVictim_invalid inv hinv
    obtain ⟨hL, hR, hbd, hinj, k, hk, hvk, hsuf⟩ := inv
    have htk : t = k := by
      have h1 : k ≤ t := by
        by_contra hcon
        have := (hvk t ht).mpr (by omega)
        rw [htinv] at this
        cases this
      have h2 : ¬ k < t := by
        intro hcon
        have := (hvk k (by omega)).mp (hfirst k hcon)
        omega
      omega
    subst htk
    refine ⟨t, ht, hvic, ?_⟩
    have holdk : R.getD t 0 = t := hsuf t (Nat.le_refl t) ht
    refine ⟨by rw [List.length_set]; exact hL, by rw [lruTouch_length]; exact hR,
      lruTouch_bounds hR hbd ht, lruTouch_inj hR hbd hinj ht, t + 1, by omega, ?_, ?_⟩
    · intro w hw
      by_cases he : w = t
      · subst he
        rw [getD_set_self _ _ _ _ (by omega), hline]
        simp
      · rw [getD_set_ne _ _ _ (fun e => he e.symm)]
        rw [hvk w hw]
        omega
    · intro v hkv hv8
      have hne : v ≠ t := by omega
      rw [lruTouch_getD_other (by omega) hne, holdk]
      have hRv : R.getD v 0 = v := hsuf v (by omega) hv8
      rw [hRv, if_neg (by omega)]
  · push_neg at hinv
    obtain ⟨hL, hR, hbd, hinj, k, hk, hvk, hsuf⟩ := inv
    obtain ⟨t, ht, hvic⟩ := lruFindVictim_lt R L
    refine ⟨t, ht, hvic, by rw [List.length_set]; exact hL,
      by rw [lruTouch_length]; exact hR, lruTouch_bounds hR hbd ht,
      lruTouch_inj hR hbd hinj ht, WAYS, Nat.le_refl WAYS, ?_, fun w hw h8 => by omega⟩
    intro w hw
    constructor
    · intro _
      exact hw
    · intro _
      by_cases he : w = t
      · subst he
        rw [getD_set_self _ _ _ _ (by omega)]
        exact hline
      · rw [getD_set_ne _ _ _ (fun e => he e.symm)]
        have := hinv w hw
        cases hvb : (L.getD w default).valid
        · exact absurd hvb this
        · rfl

/-- The whole-simulator LRU invariant. -/
def lruInv (s : SimState (List (List Nat))) : Prop :=
  cacheWF s.cache ∧ s.policyState.length = NUM_SETS ∧
  ∀ i, i < NUM_SETS → lruSetInv (s.cache.getD i []) (s.policyState.getD i [])

theorem lruInv_init : lruInv (simInit lruInit) := by
  refine ⟨cacheWF_init _, by simp [lruInit, simInit], ?_⟩
  intro i hi
  have hc : (simInit lruInit).cache.getD i [] = List.replicate WAYS {} := by
    have he : (simInit lruInit).cache = List.replicate NUM_SETS (List.replicate WAYS {}) := rfl
    rw [he, getD_replicate _ _ hi]
  have hp : (simInit lruInit).policyState.getD i [] = List.range WAYS := by
    have he : (simInit lruInit).policyState = List.replicate NUM_SETS (List.range WAYS) := rfl
    rw [he, getD_replicate _ _ hi]
  rw [hc, hp]
  refine ⟨by simp, by simp, ?_, ?_, 0, by omega, ?_, ?_⟩
  · intro w hw
    rw [getD_range _ hw]
    exact hw
  · intro a b ha hb he
    rw [getD_range _ ha, getD_range _ hb] at he
    exact he
  · intro w hw
    rw [getD_replicate _ _ hw]
    constructor
    · intro hcon
      exact absurd hcon (by decide)
    · omega
  · intro w h0 hw
    rw [getD_range _ hw]

theorem lruInv_access (s : SimState (List (List Nat))) (addr pc sharers : Nat)
    (st : MESI_State) (h : lruInv s) :
    lruInv (Simulator.access LRU_Policy s addr pc sharers st) := by
  obtain ⟨hwf, hplen, hsets⟩ := h
  have hcwf := cacheWF_access LRU_Policy s addr pc sharers st hwf
  cases hhit : findHitWay (s.cache.getD ((addr / 64) % NUM_SETS) []) addr with
  | some w =>
    rw [access_hit_eq LRU_Policy s addr pc sharers st w hhit] at hcwf ⊢
    obtain ⟨hw8, hwv, _⟩ := findHitWay_some_spec hhit
    refine ⟨hcwf, ?_, ?_⟩
    · show (s.policyState.set ((addr / 64) % NUM_SETS)
        (lruTouch (s.policyState.getD ((addr / 64) % NUM_SETS) []) w)).length = NUM_SETS
      rw [List.length_set]
      exact hplen
    · intro i hi
      show lruSetInv (s.cache.getD i [])
        ((s.policyState.set ((addr / 64) % NUM_SETS)
          (lruTouch (s.policyState.getD ((addr / 64) % NUM_SETS) []) w)).getD i [])
      by_cases he : (addr / 64) % NUM_SETS = i
      · subst he
        rw [getD_set_self _ _ _ _ (by rw [hplen]; exact setIdx_lt addr)]
        exact lruSetInv_touch_valid (hsets _ (setIdx_lt addr)) hw8 hwv
      · rw [getD_set_ne _ _ _ he]
        exact hsets i hi
  | none =>
    obtain ⟨t, ht, hvic, hsetinv⟩ :=
      lruSetInv_install (hsets _ (setIdx_lt addr))
        (⟨true, addr, pc, sharers, st, 0, 3⟩ : CacheLine) rfl
    rw [access_miss_eq LRU_Policy s addr pc sharers st hhit] at hcwf ⊢
    have hfv : (LRU_Policy.find_victim s.policyState ((addr / 64) % NUM_SETS)
        (s.cache.getD ((addr / 64) % NUM_SETS) []) pc sharers st)
        = (lruFindVictim (s.policyState.getD ((addr / 64) % NUM_SETS) [])
            (s.cache.getD ((addr / 64) % NUM_SETS) []), s.policyState) := rfl
    rw [hfv] at hcwf ⊢
    simp only [hvic] at hcwf ⊢
    rw [if_pos (by constructor <;> omega)] at hcwf ⊢
    refine ⟨hcwf, ?_, ?_⟩
    · show (s.policyState.set ((addr / 64) % NUM_SETS)
        (lruTouch (s.policyState.getD ((addr / 64) % NUM_SETS) []) ((t : Int)).toNat)).length
          = NUM_SETS
      rw [List.length_set]
      exact hplen
    · intro i hi
      show lruSetInv
        ((s.cache.set ((addr / 64) % NUM_SETS)
          ((s.cache.getD ((addr / 64) % NUM_SETS) []).set ((t : Int)).toNat
            ⟨true, addr, pc, sharers, st, 0, 3⟩)).getD i [])
        ((s.policyState.set ((addr / 64) % NUM_SETS)
          (lruTouch (s.policyState.getD ((addr / 64) % NUM_SETS) []) ((t : Int)).toNat)).getD i [])
      rw [Int.toNat_natCast]
      by_cases he : (addr / 64) % NUM_SETS = i
      · subst he
        rw [getD_set_self _ _ _ _ (by rw [hwf.1]; exact setIdx_lt addr),
          getD_set_self _ _ _ _ (by rw [hplen]; exact setIdx_lt addr)]
        exact hsetinv
      · rw [getD_set_ne _ _ _ he, getD_set_ne _ _ _ he]
        exact hsets i hi

theorem lruInv_run (tr : List AccessEvent) : lruInv (runSim LRU_Policy lruInit tr) :=
  foldl_access_inv LRU_Policy lruInv
    (fun s e hs => lruInv_access s e.addr e.pc e.sharers e.state hs) tr _ lruInv_init

/-! ## SRRIP invariant (claim C3) -/

/-- The per-set SRRIP invariant: rrpv values stay 2-bit, and as long as the
set still has an empty way, every occupied way's rrpv is at most 2 (aging has
never run there, so no occupied way can masquerade as a rrpv-3 victim). -/
def srripSetInv (L : List CacheLine) (R : List Nat) : Prop :=
  L.length = WAYS ∧ R.length = WAYS ∧ (∀ w, w < WAYS → R.getD w 3 ≤ 3) ∧
  ((∃ w, w < WAYS ∧ (L.getD w default).valid = false) →
    ∀ w, w < WAYS → (L.getD w default).valid = true → R.getD w 3 ≤ 2)

theorem srripAge_length (rr : List Nat) : (srripAge rr).length = rr.length :=
  List.length_map _ _

theorem srripLoop_some_spec {cset : List CacheLine} :
    ∀ (fuel : Nat) (rr : List Nat) (w : Nat) (rr' : List Nat),
      srripLoop cset fuel rr = some (w, rr') →
      w < WAYS ∧ rr'.length = rr.length ∧
        ∀ v, v < WAYS → rr.getD v 3 ≤ 3 → rr'.getD v 3 ≤ 3 := by
  intro fuel
  induction fuel with
  | zero => intro rr w rr' h; cases h
  | succ fuel ih =>
    intro rr w rr' h
    cases hscan : srripScan rr cset with
    | some w0 =>
      rw [srripLoop, hscan] at h
      have h1 := Option.some.inj h
      have hw : w0 = w := congrArg Prod.fst h1
      have hrr : rr = rr' := congrArg Prod.snd h1
      subst hw
      subst hrr
      have := (scanFirst_some_spec hscan).2.1
      exact ⟨by omega, rfl, fun v hv h3 => h3⟩
    | none =>
      rw [srripLoop, hscan] at h
      obtain ⟨h1, h2, h3⟩ := ih (srripAge rr) w rr' h
      refine ⟨h1, by rw [h2, srripAge_length], fun v hv hb => ?_⟩
      exact h3 v hv (srripAge_getD_le hb)

theorem srripScan_invalid {L : List CacheLine} {R : List Nat}
    (hinv : ∃ w, w < WAYS ∧ (L.getD w default).valid = false)
    (hcond : ∀ w, w < WAYS → (L.getD w default).valid = true → R.getD w 3 ≤ 2) :
    ∃ t, t < WAYS ∧ (L.getD t default).valid = false ∧
      (∀ j, j < t → (L.getD j default).valid = true) ∧
      srripScan R L = some t := by
  obtain ⟨w0, hw0, hw0inv⟩ := hinv
  have hP : ∃ w, (L.getD w default).valid = false := ⟨w0, hw0inv⟩
  set t := Nat.find hP with hts
  have htinv : (L.getD t default).valid = false := Nat.find_spec hP
  have htle : t ≤ w0 := Nat.find_min' hP hw0inv
  have htlt : t < WAYS := by omega
  have hbelow : ∀ j, j < t → (L.getD j default).valid = true := by
    intro j hj
    have := Nat.find_min hP hj
    cases hvb : (L.getD j default).valid
    · exact absurd hvb this
    · rfl
  refine ⟨t, htlt, htinv, hbelow, ?_⟩
  unfold srripScan
  refine scanFirst_eq_some (Nat.zero_le t) (by omega) ?_ ?_
  · show ((!(L.getD t default).valid) || (R.getD t 3 == 3)) = true
    rw [htinv]
    simp
  · intro j hj0 hjt
    show ((!(L.getD j default).valid) || (R.getD j 3 == 3)) = false
    have hjv := hbelow j hjt
    have hjr : R.getD j 3 ≤ 2 := hcond j (by omega) hjv
    rw [hjv]
    simp only [Bool.not_true, Bool.false_or]
    exact beq_eq_false_iff_ne.mpr (by omega)

/-- The whole-simulator SRRIP invariant. -/
def srripInv (s : SimState (List (List Nat))) : Prop :=
  cacheWF s.cache ∧ s.policyState.length = NUM_SETS ∧
  ∀ i, i < NUM_SETS → srripSetInv (s.cache.getD i []) (s.policyState.getD i [])

theorem srripInv_init : srripInv (simInit srripInit) := by
  refine ⟨cacheWF_init _, by simp [srripInit, simInit], ?_⟩
  intro i hi
  have hc : (simInit srripInit).cache.getD i [] = List.replicate WAYS {} := by
    have he : (simInit srripInit).cache = List.replicate NUM_SETS (List.replicate WAYS {}) := rfl
    rw [he, getD_replicate _ _ hi]
  have hp : (simInit srripInit).policyState.getD i [] = List.replicate WAYS 3 := by
    have he : (simInit srripInit).policyState
        = List.replicate NUM_SETS (List.replicate WAYS 3) := rfl
    rw [he, getD_replicate _ _ hi]
  rw [hc, hp]
  refine ⟨by simp, by simp, ?_, ?_⟩
  · intro w hw
    rw [getD_replicate _ _ hw]
  · intro _ w hw hv
    rw [getD_replicate _ _ hw] at hv
    exact absurd hv (by decide)

theorem srripSetInv_hit {L : List CacheLine} {R : List Nat} (inv : srripSetInv L R)
    {w : Nat} (hw : w < WAYS) : srripSetInv L (R.set w 0) := by
  obtain ⟨hL, hR, hbd, hcond⟩ := inv
  refine ⟨hL, by rw [List.length_set]; exact hR, ?_, ?_⟩
  · intro v hv
    by_cases he : v = w
    · subst he
      rw [getD_set_self _ _ _ _ (by omega)]
      omega
    · rw [getD_set_ne _ _ _ (fun e => he e.symm)]
      exact hbd v hv
  · intro hex v hv hvv
    by_cases he : v = w
    · subst he
      rw [getD_set_self _ _ _ _ (by omega)]
      omega
    · rw [getD_set_ne _ _ _ (fun e => he e.symm)]
      exact hcond hex v hv hvv

theorem srripSetInv_install {L : List CacheLine} {R R' : List Nat} (inv : srripSetInv L R)
    {t : Nat} (ht : t < WAYS) (hR' : R'.length = R.length)
    (hbd' : ∀ v, v < WAYS → R.getD v 3 ≤ 3 → R'.getD v 3 ≤ 3)
    (hsame : (∃ w, w < WAYS ∧ (L.getD w default).valid = false) → R' = R)
    (line : CacheLine) (hline : line.valid = true) :
    srripSetInv (L.set t line) (R'.set t 2) := by
  obtain ⟨hL, hR, hbd, hcond⟩ := inv
  refine ⟨by rw [List.length_set]; exact hL,
    by rw [List.length_set, hR', hR], ?_, ?_⟩
  · intro v hv
    by_cases he : v = t
    · subst he
      rw [getD_set_self _ _ _ _ (by rw [hR', hR]; exact ht)]
      omega
    · rw [getD_set_ne _ _ _ (fun e => he e.symm)]
      exact hbd' v hv (hbd v hv)
  · intro hex v hv hvv
    obtain ⟨w1, hw1, hw1inv⟩ := hex
    have hw1t : w1 ≠ t := by
      intro e
      subst e
      rw [getD_set_self _ _ _ _ (by omega), hline] at hw1inv
      cases hw1inv
    rw [getD_set_ne _ _ _ (fun e => hw1t e.symm)] at hw1inv
    have hpre : ∃ w, w < WAYS ∧ (L.getD w default).valid = false := ⟨w1, hw1, hw1inv⟩
    have hRR : R' = R := hsame hpre
    subst hRR
    by_cases he : v = t
    · subst he
      rw [getD_set_self _ _ _ _ (by rw [hR]; exact ht)]
    · rw [getD_set_ne _ _ _ (fun e => he e.symm)]
      rw [getD_set_ne _ _ _ (fun e => he e.symm)] at hvv
      exact hcond hpre v hv hvv

theorem srripInv_access (s : SimState (List (List Nat))) (addr pc sharers : Nat)
    (st : MESI_State) (h : srripInv s) :
    srripInv (Simulator.access SRRIP_Policy s addr pc sharers st) := by
  obtain ⟨hwf, hplen, hsets⟩ := h
  have hcwf := cacheWF_access SRRIP_Policy s addr pc sharers st hwf
  cases hhit : findHitWay (s.cache.getD ((addr / 64) % NUM_SETS) []) addr with
  | some w =>
    rw [access_hit_eq SRRIP_Policy s addr pc sharers st w hhit] at hcwf ⊢
    obtain ⟨hw8, hwv, _⟩ := findHitWay_some_spec hhit
    refine ⟨hcwf, ?_, ?_⟩
    · show (s.policyState.set ((addr / 64) % NUM_SETS)
        ((s.policyState.getD ((addr / 64) % NUM_SETS) []).set w 0)).length = NUM_SETS
      rw [List.length_set]
      exact hplen
    · intro i hi
      show srripSetInv (s.cache.getD i [])
        ((s.policyState.set ((addr / 64) % NUM_SETS)
          ((s.policyState.getD ((addr / 64) % NUM_SETS) []).set w 0)).getD i [])
      by_cases he : (addr / 64) % NUM_SETS = i
      · subst he
        rw [getD_set_self _ _ _ _ (by rw [hplen]; exact setIdx_lt addr)]
        exact srripSetInv_hit (hsets _ (setIdx_lt addr)) hw8
      · rw [getD_set_ne _ _ _ he]
        exact hsets i hi
  | none =>
    rw [access_miss_eq SRRIP_Policy s addr pc sharers st hhit] at hcwf ⊢
    obtain ⟨hLen, hRlen, hbd, hcond⟩ := hsets _ (setIdx_lt addr)
    cases hloop : srripLoop (s.cache.getD ((addr / 64) % NUM_SETS) []) 4
        (s.policyState.getD ((addr / 64) % NUM_SETS) []) with
    | some wr =>
      obtain ⟨t, rr'⟩ := wr
      obtain ⟨ht, hlen', hbd'⟩ := srripLoop_some_spec 4 _ t rr' hloop
      have hfv : SRRIP_Policy.find_victim s.policyState ((addr / 64) % NUM_SETS)
          (s.cache.getD ((addr / 64) % NUM_SETS) []) pc sharers st
          = ((t : Int), s.policyState.set ((addr / 64) % NUM_SETS) rr') := by
        show (match srripLoop (s.cache.getD ((addr / 64) % NUM_SETS) []) 4
            (s.policyState.getD ((addr / 64) % NUM_SETS) []) with
          | some wr => ((wr.1 : Int), s.policyState.set ((addr / 64) % NUM_SETS) wr.2)
          | none => (0, s.policyState)) = _
        rw [hloop]
      rw [hfv] at hcwf ⊢
      simp only at hcwf ⊢
      rw [if_pos (by constructor <;> omega)] at hcwf ⊢
      have hmupd : SRRIP_Policy.update_on_miss
          (s.policyState.set ((addr / 64) % NUM_SETS) rr') ((addr / 64) % NUM_SETS) ((t : Int))
          = (s.policyState.set ((addr / 64) % NUM_SETS) rr').set ((addr / 64) % NUM_SETS)
              (rr'.set t 2) := by
        simp only [SRRIP_Policy]
        rw [if_neg (by omega), Int.toNat_natCast,
          getD_set_self _ _ _ _ (by rw [hplen]; exact setIdx_lt addr)]
      rw [hmupd]
      refine ⟨hcwf, ?_, ?_⟩
      · show ((s.policyState.set ((addr / 64) % NUM_SETS) rr').set ((addr / 64) % NUM_SETS)
          (rr'.set t 2)).length = NUM_SETS
        rw [List.length_set, List.length_set]
        exact hplen
      · intro i hi
        show srripSetInv
          ((s.cache.set ((addr / 64) % NUM_SETS)
            ((s.cache.getD ((addr / 64) % NUM_SETS) []).set ((t : Int)).toNat
              ⟨true, addr, pc, sharers, st, 0, 3⟩)).getD i [])
          (((s.policyState.set ((addr / 64) % NUM_SETS) rr').set ((addr / 64) % NUM_SETS)
            (rr'.set t 2)).getD i [])
        rw [Int.toNat_natCast]
        by_cases he : (addr / 64) % NUM_SETS = i
        · subst he
          rw [getD_set_self _ _ _ _ (by rw [hwf.1]; exact setIdx_lt addr),
            getD_set_self _ _ _ _ (by rw [List.length_set, hplen]; exact setIdx_lt addr)]
          refine srripSetInv_install ⟨hLen, hRlen, hbd, hcond⟩ ht hlen' hbd' ?_ _ rfl
          intro hex
          obtain ⟨t0, ht0, ht0inv, _, hscan0⟩ := srripScan_invalid hex (hcond hex)
          have : srripLoop (s.cache.getD ((addr / 64) % NUM_SETS) []) 4
              (s.policyState.getD ((addr / 64) % NUM_SETS) [])
              = some (t0, s.policyState.getD ((addr / 64) % NUM_SETS) []) := by
            rw [srripLoop, hscan0]
          rw [hloop] at this
          simp only [Option.some.injEq, Prod.mk.injEq] at this
          exact this.2
        · rw [getD_set_ne _ _ _ he, getD_set_ne _ _ _ he, getD_set_ne _ _ _ he]
          exact hsets i hi
    | none =>
      have hfv : SRRIP_Policy.find_victim s.policyState ((addr / 64) % NUM_SETS)
          (s.cache.getD ((addr / 64) % NUM_SETS) []) pc sharers st
          = ((0 : Int), s.policyState) := by
        show (match srripLoop (s.cache.getD ((addr / 64) % NUM_SETS) []) 4
            (s.policyState.getD ((addr / 64) % NUM_SETS) []) with
          | some wr => ((wr.1 : Int), s.policyState.set ((addr / 64) % NUM_SETS) wr.2)
          | none => (0, s.policyState)) = _
        rw [hloop]
      rw [hfv] at hcwf ⊢
      simp only at hcwf ⊢
      rw [if_pos (by constructor <;> decide)] at hcwf ⊢
      have hmupd : SRRIP_Policy.update_on_miss s.policyState ((addr / 64) % NUM_SETS)
          ((0 : Int))
          = s.policyState.set ((addr / 64) % NUM_SETS)
              ((s.policyState.getD ((addr / 64) % NUM_SETS) []).set 0 2) := by
        simp only [SRRIP_Policy]
        rw [if_neg (by omega)]
        rfl
      rw [hmupd]
      refine ⟨hcwf, ?_, ?_⟩
      · show (s.policyState.set ((addr / 64) % NUM_SETS)
          ((s.policyState.getD ((addr / 64) % NUM_SETS) []).set 0 2)).length = NUM_SETS
        rw [List.length_set]
        exact hplen
      · intro i hi
        show srripSetInv
          ((s.cache.set ((addr / 64) % NUM_SETS)
            ((s.cache.getD ((addr / 64) % NUM_SETS) []).set ((0 : Int)).toNat
              ⟨true, addr, pc, sharers, st, 0, 3⟩)).getD i [])
          ((s.policyState.set ((addr / 64) % NUM_SETS)
            ((s.policyState.getD ((addr / 64) % NUM_SETS) []).set 0 2)).getD i [])
        by_cases he : (addr / 64) % NUM_SETS = i
        · subst he
          rw [getD_set_self _ _ _ _ (by rw [hwf.1]; exact setIdx_lt addr),
            getD_set_self _ _ _ _ (by rw [hplen]; exact setIdx_lt addr)]
          have h00 : ((0 : Int)).toNat = 0 := rfl
          rw [h00]
          exact srripSetInv_install ⟨hLen, hRlen, hbd, hcond⟩ (by decide) rfl
            (fun v hv hb => hb) (fun _ => rfl) _ rfl
        · rw [getD_set_ne _ _ _ he, getD_set_ne _ _ _ he]
          exact hsets i hi

theorem srripInv_run (tr : List AccessEvent) : srripInv (runSim SRRIP_Policy srripInit tr) :=
  foldl_access_inv SRRIP_Policy srripInv
    (fun s e hs => srripInv_access s e.addr e.pc e.sharers e.state hs) tr _ srripInv_init

/-! ## COALESCE empty-slot priority -/

theorem coalesceFindVictim_invalid {st : CoalesceState} {set_idx : Nat} {cset : List CacheLine}
    (hinv : ∃ w, w < WAYS ∧ (cset.getD w default).valid = false) :
    ∃ t, t < WAYS ∧ (coalesceFindVictim st set_idx cset).1 = (t : Int) ∧
      (cset.getD t default).valid = false := by
  obtain ⟨w0, hw0, hw0inv⟩ := hinv
  have hP : ∃ w, (cset.getD w default).valid = false := ⟨w0, hw0inv⟩
  have htinv : (cset.getD (Nat.find hP) default).valid = false := Nat.find_spec hP
  have htle : Nat.find hP ≤ w0 := Nat.find_min' hP hw0inv
  have hbelow : ∀ j, j < Nat.find hP → (cset.getD j default).valid = true := by
    intro j hj
    have := Nat.find_min hP hj
    cases hvb : (cset.getD j default).valid
    · exact absurd hvb this
    · rfl
  have hgo : coalesceGo st.brain cset WAYS 0 (-1) 99999 = Sum.inr (Nat.find hP) :=
    coalesceGo_inr (Nat.zero_le _) (by omega) htinv (fun j _ hj => hbelow j hj) (-1) 99999
  refine ⟨Nat.find hP, by omega, ?_, htinv⟩
  unfold coalesceFindVictim
  rw [hgo]

/-! ## Claim C3 -/

/-- C3: in every reachable per-set state of all three variants, if the set
still holds an invalid (empty) line when find_victim is called, the returned
victim way holds an invalid line — empty-slot priority dominates every
eviction heuristic. -/
theorem C3_empty_slot_priority (tr : List AccessEvent) (i pc sharers : Nat) (st : MESI_State)
    (hi : i < NUM_SETS) :
    ((∃ w, w < WAYS ∧
        ((((runSim LRU_Policy lruInit tr).cache.getD i []).getD w default).valid = false)) →
      ∃ t, t < WAYS ∧
        (LRU_Policy.find_victim (runSim LRU_Policy lruInit tr).policyState i
            ((runSim LRU_Policy lruInit tr).cache.getD i []) pc sharers st).1 = (t : Int) ∧
        (((runSim LRU_Policy lruInit tr).cache.getD i []).getD t default).valid = false) ∧
    ((∃ w, w < WAYS ∧
        ((((runSim SRRIP_Policy srripInit tr).cache.getD i []).getD w default).valid = false)) →
      ∃ t, t < WAYS ∧
        (SRRIP_Policy.find_victim (runSim SRRIP_Policy srripInit tr).policyState i
            ((runSim SRRIP_Policy srripInit tr).cache.getD i []) pc sharers st).1 = (t : Int) ∧
        (((runSim SRRIP_Policy srripInit tr).cache.getD i []).getD t default).valid = false) ∧
    ((∃ w, w < WAYS ∧
        ((((runSim COALESCE_Policy coalesceInit tr).cache.getD i []).getD w default).valid
          = false)) →
      ∃ t, t < WAYS ∧
        (COALESCE_Policy.find_victim (runSim COALESCE_Policy coalesceInit tr).policyState i
            ((runSim COALESCE_Policy coalesceInit tr).cache.getD i []) pc sharers st).1
          = (t : Int) ∧
        (((runSim COALESCE_Policy coalesceInit tr).cache.getD i []).getD t default).valid
          = false) := by
  refine ⟨?_, ?_, ?_⟩
  · intro hinv
    obtain ⟨t, ht, hvic, htinv, _⟩ :=
      lruFindVictim_invalid ((lruInv_run tr).2.2 i hi) hinv
    exact ⟨t, ht, hvic, htinv⟩
  · intro hinv
    obtain ⟨_, _, _, hcond⟩ := (srripInv_run tr).2.2 i hi
    obtain ⟨t, ht, htinv, _, hscan⟩ := srripScan_invalid hinv (hcond hinv)
    refine ⟨t, ht, ?_, htinv⟩
    have hfv : SRRIP_Policy.find_victim (runSim SRRIP_Policy srripInit tr).policyState i
        ((runSim SRRIP_Policy srripInit tr).cache.getD i []) pc sharers st
        = ((t : Int), (runSim SRRIP_Policy srripInit tr).policyState.set i
            ((runSim SRRIP_Policy srripInit tr).policyState.getD i [])) := by
      show (match srripLoop ((runSim SRRIP_Policy srripInit tr).cache.getD i []) 4
          ((runSim SRRIP_Policy srripInit tr).policyState.getD i []) with
        | some wr => ((wr.1 : Int),
            (runSim SRRIP_Policy srripInit tr).policyState.set i wr.2)
        | none => (0, (runSim SRRIP_Policy srripInit tr).policyState)) = _
      rw [srripLoop, hscan]
    rw [hfv]
  · intro hinv
    obtain ⟨t, ht, hvic, htinv⟩ :=
      @coalesceFindVictim_invalid (runSim COALESCE_Policy coalesceInit tr).policyState i
        ((runSim COALESCE_Policy coalesceInit tr).cache.getD i []) hinv
    exact ⟨t, ht, hvic, htinv⟩

/-- Witness for C3 at a concrete input: the empty trace, set 0, arbitrary
incoming access — way 0 is invalid and each variant's find_victim returns an
invalid way. -/
theorem C3_empty_slot_priority_witness :
    (∃ t, t < WAYS ∧
      (LRU_Policy.find_victim (runSim LRU_Policy lruInit []).policyState 0
          ((runSim LRU_Policy lruInit []).cache.getD 0 []) 0 0 MESI_State.EXCLUSIVE).1
        = (t : Int) ∧
      (((runSim LRU_Policy lruInit []).cache.getD 0 []).getD t default).valid = false) ∧
    (∃ t, t < WAYS ∧
      (SRRIP_Policy.find_victim (runSim SRRIP_Policy srripInit []).policyState 0
          ((runSim SRRIP_Policy srripInit []).cache.getD 0 []) 0 0 MESI_State.EXCLUSIVE).1
        = (t : Int) ∧
      (((runSim SRRIP_Policy srripInit []).cache.getD 0 []).getD t default).valid = false) ∧
    (∃ t, t < WAYS ∧
      (COALESCE_Policy.find_victim (runSim COALESCE_Policy coalesceInit []).policyState 0
          ((runSim COALESCE_Policy coalesceInit []).cache.getD 0 []) 0 0
          MESI_State.EXCLUSIVE).1 = (t : Int) ∧
      (((runSim COALESCE_Policy coalesceInit []).cache.getD 0 []).getD t default).valid
        = false) := by
  obtain ⟨h1, h2, h3⟩ :=
    C3_empty_slot_priority [] 0 0 0 MESI_State.EXCLUSIVE (by decide)
  exact ⟨h1 ⟨0, by decide, by decide⟩, h2 ⟨0, by decide, by decide⟩,
    h3 ⟨0, by decide, by decide⟩⟩

/-! ## Claim C8 -/

theorem ranks_perm {R : List Nat} (hlen : R.length = WAYS)
    (hbd : ∀ w, w < WAYS → R.getD w 0 < WAYS)
    (hinj : ∀ a b, a < WAYS → b < WAYS → R.getD a 0 = R.getD b 0 → a = b) :
    R.Perm (List.range WAYS) := by
  have hnd : R.Nodup := by
    rw [List.nodup_iff_injective_get]
    intro a b he
    have ha : (a : Nat) < WAYS := by have := a.isLt; omega
    have hb : (b : Nat) < WAYS := by have := b.isLt; omega
    have hga : R.getD (a : Nat) 0 = R.get a := getD_eq_get 0 a.isLt
    have hgb : R.getD (b : Nat) 0 = R.get b := getD_eq_get 0 b.isLt
    have : (a : Nat) = (b : Nat) := hinj a b ha hb (by rw [hga, hgb, he])
    exact Fin.ext this
  have hsub : R ⊆ List.range WAYS := by
    intro x hx
    rw [List.mem_iff_getElem] at hx
    obtain ⟨n, hn, he⟩ := hx
    rw [List.mem_range]
    have hx' : R.getD n 0 = x := by
      rw [getD_eq_get 0 hn]
      exact he
    rw [← hx']
    exact hbd n (by omega)
  exact (hnd.subperm hsub).perm_of_length_le (by rw [hlen]; simp)

/-- C8: in the Recency (LRU) variant the per-set rank values form a
permutation of 0..WAYS-1 in every reachable state, and update_on_hit /
update_on_miss on way w set w's rank to exactly 0 while incrementing exactly
the ways whose prior rank was strictly below w's prior rank (all other ranks
unchanged). -/
theorem C8_lru_rank_permutation (tr : List AccessEvent) (i w : Nat) (line : CacheLine)
    (hi : i < NUM_SETS) (hw : w < WAYS) :
    ((runSim LRU_Policy lruInit tr).policyState.getD i []).Perm (List.range WAYS) ∧
    ((LRU_Policy.update_on_hit (runSim LRU_Policy lruInit tr).policyState i w line).getD i
        []).getD w 0 = 0 ∧
    ((LRU_Policy.update_on_miss (runSim LRU_Policy lruInit tr).policyState i
        ((w : Int))).getD i []).getD w 0 = 0 ∧
    (∀ v, v < WAYS → v ≠ w →
      ((LRU_Policy.update_on_hit (runSim LRU_Policy lruInit tr).policyState i w line).getD i
          []).getD v 0
        = (if ((runSim LRU_Policy lruInit tr).policyState.getD i []).getD v 0
              < ((runSim LRU_Policy lruInit tr).policyState.getD i []).getD w 0
           then ((runSim LRU_Policy lruInit tr).policyState.getD i []).getD v 0 + 1
           else ((runSim LRU_Policy lruInit tr).policyState.getD i []).getD v 0)) ∧
    (∀ v, v < WAYS → v ≠ w →
      ((LRU_Policy.update_on_miss (runSim LRU_Policy lruInit tr).policyState i
          ((w : Int))).getD i []).getD v 0
        = (if ((runSim LRU_Policy lruInit tr).policyState.getD i []).getD v 0
              < ((runSim LRU_Policy lruInit tr).policyState.getD i []).getD w 0
           then ((runSim LRU_Policy lruInit tr).policyState.getD i []).getD v 0 + 1
           else ((runSim LRU_Policy lruInit tr).policyState.getD i []).getD v 0)) := by
  obtain ⟨hwf, hplen, hsets⟩ := lruInv_run tr
  obtain ⟨hL, hR, hbd, hinj, _k, _hk, _hvk, _hsuf⟩ := hsets i hi
  have hh : LRU_Policy.update_on_hit (runSim LRU_Policy lruInit tr).policyState i w line
      = (runSim LRU_Policy lruInit tr).policyState.set i
          (lruTouch ((runSim LRU_Policy lruInit tr).policyState.getD i []) w) := rfl
  have hm : LRU_Policy.update_on_miss (runSim LRU_Policy lruInit tr).policyState i ((w : Int))
      = (runSim LRU_Policy lruInit tr).policyState.set i
          (lruTouch ((runSim LRU_Policy lruInit tr).policyState.getD i []) w) := by
    simp only [LRU_Policy]
    rw [if_neg (by omega), Int.toNat_natCast]
  have hget : ∀ X, ((runSim LRU_Policy lruInit tr).policyState.set i X).getD i [] = X :=
    fun X => getD_set_self _ _ _ _ (by rw [hplen]; exact hi)
  refine ⟨ranks_perm hR hbd hinj, ?_, ?_, ?_, ?_⟩
  · rw [hh, hget, lruTouch_getD_self (by omega)]
  · rw [hm, hget, lruTouch_getD_self (by omega)]
  · intro v hv hvw
    rw [hh, hget, lruTouch_getD_other (by omega) hvw]
  · intro v hv hvw
    rw [hm, hget, lruTouch_getD_other (by omega) hvw]

/-- Witness for C8 at a concrete input: the initial state's set-0 ranks are a
permutation of 0..7. -/
theorem C8_lru_rank_permutation_witness :
    ((runSim LRU_Policy lruInit []).policyState.getD 0 []).Perm (List.range WAYS) :=
  (C8_lru_rank_permutation [] 0 0 {} (by decide) (by decide)).1

end Coalesce
